import Mathlib

/-!
Verification of the numeric kernels of `day33/init2nn.cu`.

The program's device buffers are flat arrays of IEEE-754 floats addressed
row-major: element (row, col) of an R×C matrix lives at `row * C + col`.
We embed a buffer as a total function `Nat → ℝ`, idealizing float, half and
double arithmetic as exact real arithmetic.  A CUDA kernel launch is embedded
as a function from the old buffer contents to the new buffer contents: every
flat index owned by an in-range worker receives the value the worker computes,
and every other index keeps its old value (workers whose guard fails write
nothing).  For a 2D-gridded kernel whose worker (row, col) owns flat element
`row * k + col`, the element at flat index `idx` is owned by worker
`(idx / k, idx % k)`, so the source guard `row < m && col < k` becomes
`idx / k < m ∧ idx % k < k`.
-/

/-- Hyperparameter `INPUT_SIZE` from the source. -/
def INPUT_SIZE : Nat := 784

/-- Hyperparameter `HIDDEN_SIZE` from the source. -/
def HIDDEN_SIZE : Nat := 4096

/-- Hyperparameter `OUTPUT_SIZE` from the source. -/
def OUTPUT_SIZE : Nat := 10

/-- Hyperparameter `BATCH_SIZE` from the source. -/
def BATCH_SIZE : Nat := 32

/-- Kernel `matmul_a_b_kernel` (plain GEMM, C = A·B): A is m×n, B is n×k,
C is m×k; the worker owning output element (row, col) with `row < m`,
`col < k` overwrites `C[row * k + col]` with `Σ_{i<n} A[row*n+i] * B[i*k+col]`. -/
noncomputable def matmul_a_b_kernel (A B C : Nat → ℝ) (m n k : Nat) : Nat → ℝ := fun idx =>
  if idx / k < m ∧ idx % k < k then
    ∑ i ∈ Finset.range n, A (idx / k * n + i) * B (i * k + idx % k)
  else C idx

/-- Kernel `matmul_a_bt_kernel` (GEMM with transposed right operand,
C = A·Bᵗ): A is m×n, B is k×n row-major; output element (row, col) gets
`Σ_{i<n} A[row*n+i] * B[col*n+i]`. -/
noncomputable def matmul_a_bt_kernel (A B C : Nat → ℝ) (m n k : Nat) : Nat → ℝ := fun idx =>
  if idx / k < m ∧ idx % k < k then
    ∑ i ∈ Finset.range n, A (idx / k * n + i) * B (idx % k * n + i)
  else C idx

/-- Kernel `matmul_at_b_kernel` (GEMM with transposed left operand,
C = Aᵗ·B): A is m×n, B is m×k row-major; output is n×k and element
(row, col) gets `Σ_{i<m} A[i*n+row] * B[i*k+col]`. -/
noncomputable def matmul_at_b_kernel (A B C : Nat → ℝ) (m n k : Nat) : Nat → ℝ := fun idx =>
  if idx / k < n ∧ idx % k < k then
    ∑ i ∈ Finset.range m, A (i * n + idx / k) * B (i * k + idx % k)
  else C idx

/-- Kernel `gelu_kernel`: in place, elementwise
`x := x * 0.5 * (1 + tanh(0.7978845608 * (x + 0.044715 * x³)))` for `idx < size`. -/
noncomputable def gelu_kernel (x : Nat → ℝ) (size : Nat) : Nat → ℝ := fun idx =>
  if idx < size then
    x idx * (0.5 * (1 + Real.tanh (0.7978845608 * (x idx + 0.044715 * (x idx * x idx * x idx)))))
  else x idx

/-- Kernel `dgelu_kernel`: reads the pre-activation buffer `x` and writes
`cdf + x * pdf` into the separate buffer `d_gelu_out` for `idx < size`,
where `cdf = 0.5 * (1 + tanh(0.7978845608 * (x + 0.044715 * x³)))` and
`pdf = 0.5 * sqrt(2/π) * exp(-0.5 * x²)`.  The result is the pair
(final contents of `x`, final contents of `d_gelu_out`); the kernel never
writes `x`, so the first component is `x` itself. -/
noncomputable def dgelu_kernel (x d_gelu_out : Nat → ℝ) (size : Nat) : (Nat → ℝ) × (Nat → ℝ) :=
  (x, fun idx =>
    if idx < size then
      0.5 * (1 + Real.tanh (0.7978845608 * (x idx + 0.044715 * (x idx * x idx * x idx)))) +
        x idx * (0.5 * Real.sqrt (2 / Real.pi) * Real.exp (-0.5 * (x idx * x idx)))
    else d_gelu_out idx)

/-- Row maximum computed by `softmax_kernel`: starts from `x[b*size]` and
folds `fmaxf` over the remaining indices `1, …, size-1` of row `b`. -/
noncomputable def rowMax (x : Nat → ℝ) (b size : Nat) : ℝ :=
  (List.range' 1 (size - 1)).foldl (fun m i => max m (x (b * size + i))) (x (b * size))

/-- Row sum of exponentials computed by `softmax_kernel`'s second loop:
`Σ_{i<size} exp(x[b*size+i] - rowMax)`. -/
noncomputable def rowExpSum (x : Nat → ℝ) (b size : Nat) : ℝ :=
  ∑ i ∈ Finset.range size, Real.exp (x (b * size + i) - rowMax x b size)

/-- Kernel `softmax_kernel`: one worker per row `b < batch_size`; the final
value of row element `i` is `fmaxf(exp(x_i - max)/sum, 1e-7)` where `max` is
the row maximum and `sum` the row sum of shifted exponentials.  Element `idx`
belongs to row `idx / size`, position `idx % size`. -/
noncomputable def softmax_kernel (x : Nat → ℝ) (batch_size size : Nat) : Nat → ℝ := fun idx =>
  if idx / size < batch_size ∧ idx % size < size then
    max (Real.exp (x idx - rowMax x (idx / size) size) / rowExpSum x (idx / size) size) 1e-7
  else x idx

/-- Kernel `bias_add_kernel`: in place, `x[idx] += bias[idx % size]` for the
flattened index `idx` with `idx / size < batch_size` and `idx % size < size`. -/
noncomputable def bias_add_kernel (x bias : Nat → ℝ) (batch_size size : Nat) : Nat → ℝ := fun idx =>
  if idx / size < batch_size ∧ idx % size < size then x idx + bias (idx % size) else x idx

/-- Kernel `multiply_gradients_kernel`: in place into `grad1`,
`grad1[idx] *= grad2[idx]` for `idx < size`. -/
noncomputable def multiply_gradients_kernel (grad1 grad2 : Nat → ℝ) (size : Nat) : Nat → ℝ := fun idx =>
  if idx < size then grad1 idx * grad2 idx else grad1 idx

/-- Host function `cross_entropy_loss`: sequentially accumulates
`total_loss -= logf(fmaxf(output[b*OUTPUT_SIZE + labels[b]], 1e-7))` over the
batch and returns `total_loss / batch_size`. -/
noncomputable def cross_entropy_loss (output : Nat → ℝ) (labels : Nat → Nat) (batch_size : Nat) : ℝ :=
  (List.range batch_size).foldl
    (fun total_loss b => total_loss - Real.log (max (output (b * OUTPUT_SIZE + labels b)) 1e-7))
    0 / (batch_size : ℝ)

/-- Host function `forward`: the forward pipeline of the network, composing
the kernel launches in the source's order on the hidden and output buffers.
Returns (final hidden buffer after GELU, final output buffer after softmax). -/
noncomputable def forward (weights1 bias1 weights2 bias2 input hidden output : Nat → ℝ)
    (batch_size : Nat) : (Nat → ℝ) × (Nat → ℝ) :=
  let h1 := matmul_a_b_kernel input weights1 hidden batch_size INPUT_SIZE HIDDEN_SIZE
  let h2 := bias_add_kernel h1 bias1 batch_size HIDDEN_SIZE
  let h3 := gelu_kernel h2 (batch_size * HIDDEN_SIZE)
  let o1 := matmul_a_b_kernel h3 weights2 output batch_size HIDDEN_SIZE OUTPUT_SIZE
  let o2 := bias_add_kernel o1 bias2 batch_size OUTPUT_SIZE
  let o3 := softmax_kernel o2 batch_size OUTPUT_SIZE
  (h3, o3)

/-- Explicit transpose of a flat row-major `rows × cols` matrix, used to state
the spec's algebraic relations between the GEMM variants: the result is the
`cols × rows` matrix with element (i, j) equal to `B[j, i]`. -/
noncomputable def transposeFlat (B : Nat → ℝ) (rows cols : Nat) : Nat → ℝ := fun idx =>
  B (idx % rows * cols + idx / rows)

/-- Decoding a flat row-major index: the row. -/
theorem flat_div (r k c : Nat) (hc : c < k) : (r * k + c) / k = r := by
  have hk : 0 < k := lt_of_le_of_lt (Nat.zero_le c) hc
  rw [Nat.add_comm, Nat.mul_comm r k, Nat.add_mul_div_left _ _ hk,
    Nat.div_eq_of_lt hc, Nat.zero_add]

/-- Decoding a flat row-major index: the column. -/
theorem flat_mod (r k c : Nat) (hc : c < k) : (r * k + c) % k = c :=
  Nat.mul_add_mod_of_lt hc

/-- A flat row-major index with in-range row and column is inside the region. -/
theorem flat_lt (r c R C : Nat) (hr : r < R) (hc : c < C) : r * C + c < R * C :=
  calc r * C + c < r * C + C := by omega
  _ = (r + 1) * C := by ring
  _ ≤ R * C := Nat.mul_le_mul_right C hr

/-- Value of the plain GEMM kernel at an in-region flat index. -/
theorem matmul_val (A B C : Nat → ℝ) (m n k idx : Nat) (h : idx < m * k) :
    matmul_a_b_kernel A B C m n k idx =
      ∑ i ∈ Finset.range n, A (idx / k * n + i) * B (i * k + idx % k) := by
  have hk : 0 < k := by
    rcases Nat.eq_zero_or_pos k with h0 | h0
    · subst h0; omega
    · exact h0
  have hdiv : idx / k < m := (Nat.div_lt_iff_lt_mul hk).mpr h
  have hcond : idx / k < m ∧ idx % k < k := ⟨hdiv, Nat.mod_lt idx hk⟩
  simp only [matmul_a_b_kernel, if_pos hcond]

/-- Value of the bias-add kernel at an in-region flat index. -/
theorem bias_add_val (x bias : Nat → ℝ) (batch_size size idx : Nat)
    (h : idx < batch_size * size) :
    bias_add_kernel x bias batch_size size idx = x idx + bias (idx % size) := by
  have hs : 0 < size := by
    rcases Nat.eq_zero_or_pos size with h0 | h0
    · subst h0; omega
    · exact h0
  have hdiv : idx / size < batch_size := (Nat.div_lt_iff_lt_mul hs).mpr h
  have hcond : idx / size < batch_size ∧ idx % size < size := ⟨hdiv, Nat.mod_lt idx hs⟩
  simp only [bias_add_kernel, if_pos hcond]

/-- Value of the GELU kernel at an in-range index. -/
theorem gelu_val (x : Nat → ℝ) (size idx : Nat) (h : idx < size) :
    gelu_kernel x size idx =
      x idx * (0.5 * (1 + Real.tanh (0.7978845608 *
        (x idx + 0.044715 * (x idx * x idx * x idx))))) := by
  simp only [gelu_kernel, if_pos h]

/-- Value of the softmax kernel at an in-range element of row `b`. -/
theorem softmax_val (x : Nat → ℝ) (batch_size size b i : Nat)
    (hb : b < batch_size) (hi : i < size) :
    softmax_kernel x batch_size size (b * size + i) =
      max (Real.exp (x (b * size + i) - rowMax x b size) / rowExpSum x b size) 1e-7 := by
  have hcond : b < batch_size ∧ i < size := ⟨hb, hi⟩
  simp only [softmax_kernel, flat_div b size i hi, flat_mod b size i hi, if_pos hcond]

/-- Claim C1: for every m, n, k and matrices A (m×n), B (n×k) in row-major flat
addressing, the plain GEMM kernel sets every output element (row, col) with
row < m, col < k to `Σ_{i<n} A[row,i] * B[i,col]`, overwriting whatever value
C held (the result does not depend on the previous contents of C). -/
theorem matmul_a_b_kernel_entries (A B C : Nat → ℝ) (m n k row col : Nat)
    (hr : row < m) (hc : col < k) :
    matmul_a_b_kernel A B C m n k (row * k + col) =
      ∑ i ∈ Finset.range n, A (row * n + i) * B (i * k + col) := by
  rw [matmul_val A B C m n k _ (flat_lt row col m k hr hc), flat_div row k col hc,
    flat_mod row k col hc]

/-- Witness for C1 at m = n = k = 1, row = col = 0. -/
theorem matmul_a_b_kernel_entries_witness :
    (0 < 1 ∧ 0 < 1) ∧
      matmul_a_b_kernel (fun _ => 2) (fun _ => 3) (fun _ => 5) 1 1 1 (0 * 1 + 0) =
        ∑ i ∈ Finset.range 1, (fun _ => (2 : ℝ)) (0 * 1 + i) * (fun _ => (3 : ℝ)) (i * 1 + 0) :=
  ⟨⟨Nat.one_pos, Nat.one_pos⟩,
    matmul_a_b_kernel_entries (fun _ => 2) (fun _ => 3) (fun _ => 5) 1 1 1 0 0
      Nat.one_pos Nat.one_pos⟩

/-- Claim C6: the transpose-right GEMM kernel on A, B coincides (at every flat
index, written or not) with the plain GEMM kernel on A and the explicit
transpose of B (B being k×n, its transpose n×k), and the transpose-left GEMM
kernel on A, B coincides with the plain GEMM kernel on the explicit transpose
of A (A being m×n, its transpose n×m) and B with shapes (n, m, k). -/
theorem matmul_transpose_variants (A B C : Nat → ℝ) (m n k idx : Nat) :
    matmul_a_bt_kernel A B C m n k idx =
      matmul_a_b_kernel A (transposeFlat B k n) C m n k idx ∧
    matmul_at_b_kernel A B C m n k idx =
      matmul_a_b_kernel (transposeFlat A m n) B C n m k idx := by
  constructor
  · simp only [matmul_a_bt_kernel, matmul_a_b_kernel]
    by_cases h : idx / k < m ∧ idx % k < k
    · rw [if_pos h, if_pos h]
      refine Finset.sum_congr rfl fun i hi => ?_
      congr 1
      simp only [transposeFlat]
      rw [flat_mod i k (idx % k) h.2, flat_div i k (idx % k) h.2]
    · rw [if_neg h, if_neg h]
  · simp only [matmul_at_b_kernel, matmul_a_b_kernel]
    by_cases h : idx / k < n ∧ idx % k < k
    · rw [if_pos h, if_pos h]
      refine Finset.sum_congr rfl fun i hi => ?_
      congr 1
      simp only [transposeFlat]
      rw [flat_mod (idx / k) m i (Finset.mem_range.mp hi),
        flat_div (idx / k) m i (Finset.mem_range.mp hi)]
    · rw [if_neg h, if_neg h]

/-- Claim C9: the activation-derivative kernel writes `cdf + x * pdf` into each
in-range element of its separate output buffer, where
`cdf = 0.5 * (1 + tanh(0.7978845608 * (x + 0.044715 * x³)))` and
`pdf = 0.5 * sqrt(2/π) * exp(-x²/2)`, and leaves the input buffer unchanged. -/
theorem dgelu_kernel_correct (x d_out : Nat → ℝ) (size idx : Nat) (h : idx < size) :
    (dgelu_kernel x d_out size).2 idx =
      0.5 * (1 + Real.tanh (0.7978845608 * (x idx + 0.044715 * x idx ^ 3))) +
        x idx * (0.5 * Real.sqrt (2 / Real.pi) * Real.exp (-(x idx ^ 2) / 2)) ∧
    (dgelu_kernel x d_out size).1 = x := by
  constructor
  · simp only [dgelu_kernel, if_pos h]
    ring_nf
  · rfl

/-- Witness for C9 at size = 1, idx = 0 on zero buffers. -/
theorem dgelu_kernel_correct_witness :
    0 < 1 ∧
      ((dgelu_kernel (fun _ => 0) (fun _ => 0) 1).2 0 =
        0.5 * (1 + Real.tanh (0.7978845608 *
          ((fun _ => (0 : ℝ)) 0 + 0.044715 * (fun _ => (0 : ℝ)) 0 ^ 3))) +
          (fun _ => (0 : ℝ)) 0 * (0.5 * Real.sqrt (2 / Real.pi) *
            Real.exp (-((fun _ => (0 : ℝ)) 0 ^ 2) / 2)) ∧
        (dgelu_kernel (fun _ => (0 : ℝ)) (fun _ => 0) 1).1 = fun _ => 0) :=
  ⟨Nat.one_pos, dgelu_kernel_correct (fun _ => 0) (fun _ => 0) 1 0 Nat.one_pos⟩

/-- Claim C10: a worker whose computed index falls outside the declared output
region writes nothing — every buffer element at a flat index outside the
region (at or beyond m·k for the GEMM kernel, batch_size·size for the
bias-add kernel, size for the GELU and elementwise-gradient kernels) is
unchanged by the launch. -/
theorem kernels_skip_out_of_range (A B C x bias g1 g2 : Nat → ℝ)
    (m n k batch_size size sz1 sz2 i1 i2 i3 i4 : Nat)
    (h1 : m * k ≤ i1) (h2 : batch_size * size ≤ i2) (h3 : sz1 ≤ i3) (h4 : sz2 ≤ i4) :
    matmul_a_b_kernel A B C m n k i1 = C i1 ∧
    bias_add_kernel x bias batch_size size i2 = x i2 ∧
    gelu_kernel x sz1 i3 = x i3 ∧
    multiply_gradients_kernel g1 g2 sz2 i4 = g1 i4 := by
  refine ⟨?_, ?_, ?_, ?_⟩
  · simp only [matmul_a_b_kernel]
    rw [if_neg]
    rintro ⟨hdm, hmk⟩
    have hk : 0 < k := lt_of_le_of_lt (Nat.zero_le _) hmk
    exact absurd ((Nat.div_lt_iff_lt_mul hk).mp hdm) (not_lt.mpr h1)
  · simp only [bias_add_kernel]
    rw [if_neg]
    rintro ⟨hdm, hmk⟩
    have hs : 0 < size := lt_of_le_of_lt (Nat.zero_le _) hmk
    exact absurd ((Nat.div_lt_iff_lt_mul hs).mp hdm) (not_lt.mpr h2)
  · simp only [gelu_kernel, if_neg (not_lt.mpr h3)]
  · simp only [multiply_gradients_kernel, if_neg (not_lt.mpr h4)]

/-- Witness for C10 at 1×1 shapes and out-of-region index 5. -/
theorem kernels_skip_out_of_range_witness :
    (1 * 1 ≤ 5 ∧ 1 * 1 ≤ 5 ∧ 1 ≤ 5 ∧ 1 ≤ 5) ∧
      (matmul_a_b_kernel (fun _ => 1) (fun _ => 1) (fun _ => 7) 1 1 1 5 = (fun _ => (7 : ℝ)) 5 ∧
        bias_add_kernel (fun _ => 8) (fun _ => 1) 1 1 5 = (fun _ => (8 : ℝ)) 5 ∧
        gelu_kernel (fun _ => 8) 1 5 = (fun _ => (8 : ℝ)) 5 ∧
        multiply_gradients_kernel (fun _ => 9) (fun _ => 1) 1 5 = (fun _ => (9 : ℝ)) 5) :=
  ⟨⟨by omega, by omega, by omega, by omega⟩,
    kernels_skip_out_of_range (fun _ => 1) (fun _ => 1) (fun _ => 7) (fun _ => 8) (fun _ => 1)
      (fun _ => 9) (fun _ => 1) 1 1 1 1 1 1 1 5 5 5 5
      (by omega) (by omega) (by omega) (by omega)⟩

/-- The sequential subtracting accumulation of the loss loop equals the
negated finite sum. -/
theorem cel_foldl (g : Nat → ℝ) (n : Nat) (a : ℝ) :
    (List.range n).foldl (fun t b => t - g b) a = a - ∑ b ∈ Finset.range n, g b := by
  induction n with
  | zero => simp
  | succ n ih =>
    rw [List.range_succ, List.foldl_append, ih]
    simp only [List.foldl_cons, List.foldl_nil, Finset.sum_range_succ]
    ring

/-- Closed form of the loss evaluator: the loop computes the negated sum of
floored log-probabilities divided by the batch size. -/
theorem cross_entropy_loss_eq (output : Nat → ℝ) (labels : Nat → Nat) (B : Nat) :
    cross_entropy_loss output labels B =
      -(∑ b ∈ Finset.range B, Real.log (max (output (b * OUTPUT_SIZE + labels b)) 1e-7)) /
        (B : ℝ) := by
  unfold cross_entropy_loss
  rw [cel_foldl, zero_sub]

/-- Claim C3: for every batch of B output rows and labels in [0, OUTPUT_SIZE),
the loss evaluator returns exactly `-(1/B) * Σ_b ln(max(output[b, label b], 1e-7))`. -/
theorem cross_entropy_loss_formula (output : Nat → ℝ) (labels : Nat → Nat) (B : Nat)
    (_hlab : ∀ b < B, labels b < OUTPUT_SIZE) :
    cross_entropy_loss output labels B =
      -(1 / (B : ℝ)) *
        ∑ b ∈ Finset.range B, Real.log (max (output (b * OUTPUT_SIZE + labels b)) 1e-7) := by
  rw [cross_entropy_loss_eq]
  ring

/-- Witness for C3 at batch size 1, all-ones output, label 0. -/
theorem cross_entropy_loss_formula_witness :
    (∀ b < 1, (fun _ => 0) b < OUTPUT_SIZE) ∧
      cross_entropy_loss (fun _ => 1) (fun _ => 0) 1 =
        -(1 / ((1 : Nat) : ℝ)) *
          ∑ b ∈ Finset.range 1,
            Real.log (max ((fun _ => (1 : ℝ)) (b * OUTPUT_SIZE + (fun _ => 0) b)) 1e-7) :=
  ⟨fun _ _ => by show 0 < OUTPUT_SIZE; decide,
    cross_entropy_loss_formula (fun _ => 1) (fun _ => 0) 1 (fun _ _ => by show 0 < OUTPUT_SIZE; decide)⟩

/-- Counterexample to C8 as stated: for the output buffer that is
constantly 2 (an entry greater than 1) the loss evaluator returns `-ln 2`,
which is negative, so the loss is not non-negative for every output buffer. -/
theorem cross_entropy_loss_negative_example :
    cross_entropy_loss (fun _ => 2) (fun _ => 0) 1 < 0 := by
  rw [cross_entropy_loss_eq]
  simp only [Finset.sum_range_one, Nat.cast_one, div_one]
  rw [max_eq_left (by norm_num : (1e-7 : ℝ) ≤ 2)]
  exact neg_lt_zero.mpr (Real.log_pos one_lt_two)

/-- Claim C8 (amended): whenever every true-class entry of the output buffer
is at most 1 (as is the case for softmax outputs), the loss evaluator returns
a non-negative value, and the loss approaches 0 as the true-class probability
approaches 1. -/
theorem cross_entropy_loss_nonneg_tendsto (output : Nat → ℝ) (labels : Nat → Nat) (B : Nat)
    (_hlab : ∀ b < B, labels b < OUTPUT_SIZE)
    (hle : ∀ b < B, output (b * OUTPUT_SIZE + labels b) ≤ 1) :
    0 ≤ cross_entropy_loss output labels B ∧
      Filter.Tendsto (fun p : ℝ => cross_entropy_loss (fun _ => p) (fun _ => 0) 1)
        (nhds 1) (nhds 0) := by
  constructor
  · rw [cross_entropy_loss_eq]
    apply div_nonneg
    · rw [neg_nonneg]
      apply Finset.sum_nonpos
      intro b hb
      apply Real.log_nonpos
      · exact le_trans (by norm_num) (le_max_right _ _)
      · exact max_le (hle b (Finset.mem_range.mp hb)) (by norm_num)
    · exact Nat.cast_nonneg B
  · have heq : (fun p : ℝ => cross_entropy_loss (fun _ => p) (fun _ => 0) 1)
        = fun p : ℝ => -Real.log (max p 1e-7) := by
      funext p
      rw [cross_entropy_loss_eq]
      simp
    rw [heq]
    have hcont : ContinuousAt (fun p : ℝ => -Real.log (max p 1e-7)) 1 := by
      apply ContinuousAt.neg
      exact (Real.continuousAt_log (by norm_num)).comp
        ((continuous_id.max continuous_const).continuousAt)
    have ht := hcont.tendsto
    simp only [max_eq_left (by norm_num : (1e-7 : ℝ) ≤ 1), Real.log_one, neg_zero] at ht
    exact ht

/-- Witness for the amended C8 at batch size 1, all-ones output, label 0. -/
theorem cross_entropy_loss_nonneg_tendsto_witness :
    ((∀ b < 1, (fun _ => 0) b < OUTPUT_SIZE) ∧
      (∀ b < 1, (fun _ => (1 : ℝ)) (b * OUTPUT_SIZE + (fun _ => 0) b) ≤ 1)) ∧
      (0 ≤ cross_entropy_loss (fun _ => 1) (fun _ => 0) 1 ∧
        Filter.Tendsto (fun p : ℝ => cross_entropy_loss (fun _ => p) (fun _ => 0) 1)
          (nhds 1) (nhds 0)) :=
  ⟨⟨fun _ _ => by show 0 < OUTPUT_SIZE; decide, fun _ _ => le_refl 1⟩,
    cross_entropy_loss_nonneg_tendsto (fun _ => 1) (fun _ => 0) 1
      (fun _ _ => by show 0 < OUTPUT_SIZE; decide) (fun _ _ => le_refl 1)⟩

/-- Folding max over values all bounded by the initial accumulator leaves the
accumulator unchanged. -/
theorem foldl_max_of_le (g : Nat → ℝ) (l : List Nat) (a : ℝ) :
    (∀ i ∈ l, g i ≤ a) → l.foldl (fun m i => max m (g i)) a = a := by
  induction l with
  | nil => intro _; rfl
  | cons hd tl ih =>
    intro h
    rw [List.foldl_cons, max_eq_left (h hd (List.mem_cons_self hd tl))]
    exact ih fun i hi => h i (List.mem_cons_of_mem hd hi)

/-- Folding max over uniformly shifted values shifts the fold result. -/
theorem foldl_max_add (g : Nat → ℝ) (c : ℝ) (l : List Nat) :
    ∀ a : ℝ, l.foldl (fun m i => max m (g i + c)) (a + c) =
      l.foldl (fun m i => max m (g i)) a + c := by
  induction l with
  | nil => intro a; rfl
  | cons hd tl ih =>
    intro a
    rw [List.foldl_cons, List.foldl_cons, max_add_add_right]
    exact ih (max a (g hd))

/-- Shifting every logit of the buffer by a constant shifts the row maximum. -/
theorem rowMax_shift (x : Nat → ℝ) (c : ℝ) (b size : Nat) :
    rowMax (fun j => x j + c) b size = rowMax x b size + c := by
  simp only [rowMax]
  exact foldl_max_add (fun i => x (b * size + i)) c _ (x (b * size))

/-- Shifting every logit of the buffer by a constant leaves the row exp-sum
unchanged. -/
theorem rowExpSum_shift (x : Nat → ℝ) (c : ℝ) (b size : Nat) :
    rowExpSum (fun j => x j + c) b size = rowExpSum x b size := by
  simp only [rowExpSum]
  rw [rowMax_shift]
  refine Finset.sum_congr rfl fun i _ => ?_
  congr 1
  ring

/-- Claim C7: adding a constant to every logit produces the same softmax
output at every in-region element (shift invariance of the max-subtracted
softmax). -/
theorem softmax_shift_invariant (x : Nat → ℝ) (c : ℝ) (batch_size size idx : Nat)
    (h : idx < batch_size * size) :
    softmax_kernel (fun j => x j + c) batch_size size idx =
      softmax_kernel x batch_size size idx := by
  have hs : 0 < size := by
    rcases Nat.eq_zero_or_pos size with h0 | h0
    · subst h0; omega
    · exact h0
  have hd : idx / size < batch_size := (Nat.div_lt_iff_lt_mul hs).mpr h
  have hcond : idx / size < batch_size ∧ idx % size < size := ⟨hd, Nat.mod_lt idx hs⟩
  simp only [softmax_kernel, if_pos hcond]
  rw [rowMax_shift, rowExpSum_shift]
  have harg : x idx + c - (rowMax x (idx / size) size + c) =
      x idx - rowMax x (idx / size) size := by ring
  rw [harg]

/-- Witness for C7 at batch_size = size = 1, idx = 0, shift 1. -/
theorem softmax_shift_invariant_witness :
    0 < 1 * 1 ∧
      softmax_kernel (fun j => (fun _ => (0 : ℝ)) j + 1) 1 1 0 =
        softmax_kernel (fun _ => (0 : ℝ)) 1 1 0 :=
  ⟨Nat.one_pos, softmax_shift_invariant (fun _ => 0) 1 1 1 0 Nat.one_pos⟩

/-- Claim C2 (amended): for every input, batch_size, size ≥ 1 and row
b < batch_size, every softmax output entry of the row is at least 1e-7 and the
row sum lies in [1, 1 + size·1e-7]; in particular it is within 1e-4 of 1
whenever size ≤ 1000 (the floor can push the sum above 1 + 1e-4 for larger
rows). -/
theorem softmax_row_bounds (x : Nat → ℝ) (batch_size size b : Nat)
    (hb : b < batch_size) (hs : 0 < size) :
    (∀ i < size, 1e-7 ≤ softmax_kernel x batch_size size (b * size + i)) ∧
    1 ≤ ∑ i ∈ Finset.range size, softmax_kernel x batch_size size (b * size + i) ∧
    (∑ i ∈ Finset.range size, softmax_kernel x batch_size size (b * size + i)) ≤
      1 + (size : ℝ) * 1e-7 ∧
    (size ≤ 1000 →
      (∑ i ∈ Finset.range size, softmax_kernel x batch_size size (b * size + i)) ≤ 1 + 1e-4) := by
  have hsum_pos : 0 < rowExpSum x b size :=
    Finset.sum_pos (fun i _ => Real.exp_pos _)
      (Finset.nonempty_range_iff.mpr (Nat.pos_iff_ne_zero.mp hs))
  have hval : ∀ i < size, softmax_kernel x batch_size size (b * size + i) =
      max (Real.exp (x (b * size + i) - rowMax x b size) / rowExpSum x b size) 1e-7 :=
    fun i hi => softmax_val x batch_size size b i hb hi
  have hp_nonneg : ∀ i : Nat,
      0 ≤ Real.exp (x (b * size + i) - rowMax x b size) / rowExpSum x b size :=
    fun i => div_nonneg (Real.exp_pos _).le hsum_pos.le
  have hsum1 : ∑ i ∈ Finset.range size,
      Real.exp (x (b * size + i) - rowMax x b size) / rowExpSum x b size = 1 := by
    rw [← Finset.sum_div]
    exact div_self (ne_of_gt hsum_pos)
  have hupper : (∑ i ∈ Finset.range size, softmax_kernel x batch_size size (b * size + i)) ≤
      1 + (size : ℝ) * 1e-7 := by
    have hle : ∀ i ∈ Finset.range size, softmax_kernel x batch_size size (b * size + i) ≤
        Real.exp (x (b * size + i) - rowMax x b size) / rowExpSum x b size + 1e-7 := by
      intro i hi
      rw [hval i (Finset.mem_range.mp hi)]
      exact max_le (le_add_of_nonneg_right (by norm_num)) (le_add_of_nonneg_left (hp_nonneg i))
    calc (∑ i ∈ Finset.range size, softmax_kernel x batch_size size (b * size + i)) ≤
        ∑ i ∈ Finset.range size,
          (Real.exp (x (b * size + i) - rowMax x b size) / rowExpSum x b size + 1e-7) :=
          Finset.sum_le_sum hle
    _ = 1 + (size : ℝ) * 1e-7 := by
        rw [Finset.sum_add_distrib, hsum1, Finset.sum_const, Finset.card_range, nsmul_eq_mul]
  refine ⟨fun i hi => ?_, ?_, hupper, fun h1000 => ?_⟩
  · rw [hval i hi]
    exact le_max_right _ _
  · calc (1 : ℝ) = ∑ i ∈ Finset.range size,
        Real.exp (x (b * size + i) - rowMax x b size) / rowExpSum x b size := hsum1.symm
    _ ≤ ∑ i ∈ Finset.range size, softmax_kernel x batch_size size (b * size + i) := by
        refine Finset.sum_le_sum fun i hi => ?_
        rw [hval i (Finset.mem_range.mp hi)]
        exact le_max_left _ _
  · refine le_trans hupper ?_
    have hcast : (size : ℝ) ≤ 1000 := by exact_mod_cast h1000
    nlinarith

/-- Witness for the amended C2 at batch_size = size = 1, b = 0, zero input. -/
theorem softmax_row_bounds_witness :
    (0 < 1 ∧ 0 < 1) ∧
      ((∀ i < 1, (1e-7 : ℝ) ≤ softmax_kernel (fun _ => 0) 1 1 (0 * 1 + i)) ∧
        1 ≤ ∑ i ∈ Finset.range 1, softmax_kernel (fun _ => 0) 1 1 (0 * 1 + i) ∧
        (∑ i ∈ Finset.range 1, softmax_kernel (fun _ => 0) 1 1 (0 * 1 + i)) ≤
          1 + ((1 : Nat) : ℝ) * 1e-7 ∧
        (1 ≤ 1000 →
          (∑ i ∈ Finset.range 1, softmax_kernel (fun _ => 0) 1 1 (0 * 1 + i)) ≤ 1 + 1e-4)) :=
  ⟨⟨Nat.one_pos, Nat.one_pos⟩, softmax_row_bounds (fun _ => 0) 1 1 0 Nat.one_pos Nat.one_pos⟩

/-- Counterexample to C2 as stated: for batch_size = 1 and size = 2000, with
one logit 40 and the rest 0, the 1e-7 floor lifts 1999 near-zero entries, and
the row of softmax outputs sums to strictly more than 1 + 1e-4, so the rows do
not always sum to 1 within 1e-4 absolute tolerance. -/
theorem softmax_sum_counterexample :
    1 + 1e-4 < ∑ i ∈ Finset.range 2000,
      softmax_kernel (fun idx => if idx = 0 then (40 : ℝ) else 0) 1 2000 i := by
  set x₀ : Nat → ℝ := fun idx => if idx = 0 then (40 : ℝ) else 0 with hx₀
  have h40 : x₀ 0 = 40 := if_pos rfl
  have hne : ∀ i : Nat, i ≠ 0 → x₀ i = 0 := fun i hi => if_neg hi
  have hmax : rowMax x₀ 0 2000 = 40 := by
    simp only [rowMax, Nat.zero_mul, Nat.zero_add, h40]
    exact foldl_max_of_le x₀ _ 40 fun i hi => by
      rw [List.mem_range'_1] at hi
      rw [hne i (by omega)]
      norm_num
  have hsum : rowExpSum x₀ 0 2000 = 1 + 1999 * Real.exp (-40) := by
    simp only [rowExpSum, Nat.zero_mul, Nat.zero_add, hmax]
    rw [show (2000 : Nat) = 1999 + 1 from rfl, Finset.sum_range_succ' _ 1999]
    have hterm : ∀ i : Nat, x₀ (i + 1) - 40 = -40 := fun i => by
      rw [hne (i + 1) (Nat.succ_ne_zero i)]; ring
    simp only [hterm, h40, sub_self, Real.exp_zero, Finset.sum_const, Finset.card_range,
      nsmul_eq_mul]
    ring
  have hexp40 : (2 : ℝ) ^ 40 ≤ Real.exp 40 := by
    have h2 : (2 : ℝ) ≤ Real.exp 1 := le_of_lt (lt_trans (by norm_num) Real.exp_one_gt_d9)
    calc (2 : ℝ) ^ 40 ≤ Real.exp 1 ^ 40 := pow_le_pow_left₀ (by norm_num) h2 40
    _ = Real.exp 40 := by
        rw [← Real.exp_nat_mul]
        norm_num
  have hesmall : Real.exp (-40) ≤ ((2 : ℝ) ^ 40)⁻¹ := by
    rw [Real.exp_neg]
    exact inv_anti₀ (by positivity) hexp40
  have hepos : 0 < Real.exp (-40 : ℝ) := Real.exp_pos _
  have hentry : ∀ i : Nat, 1 ≤ i → i < 2000 → softmax_kernel x₀ 1 2000 i = 1e-7 := by
    intro i h1 h2
    have hv := softmax_val x₀ 1 2000 0 i Nat.one_pos h2
    simp only [Nat.zero_mul, Nat.zero_add] at hv
    rw [hv, hmax, hsum, hne i (by omega)]
    apply max_eq_right
    rw [zero_sub]
    calc Real.exp (-40) / (1 + 1999 * Real.exp (-40)) ≤ Real.exp (-40) / 1 :=
        div_le_div_of_nonneg_left hepos.le one_pos (by nlinarith)
    _ = Real.exp (-40) := div_one _
    _ ≤ ((2 : ℝ) ^ 40)⁻¹ := hesmall
    _ ≤ 1e-7 := by norm_num
  have hentry0 : softmax_kernel x₀ 1 2000 0 = 1 / (1 + 1999 * Real.exp (-40)) := by
    have hv := softmax_val x₀ 1 2000 0 0 Nat.one_pos (by norm_num)
    simp only [Nat.zero_mul, Nat.zero_add] at hv
    rw [hv, hmax, hsum, h40, sub_self, Real.exp_zero]
    apply max_eq_left
    have hdlt : 1999 * Real.exp (-40) ≤ 1 := by nlinarith
    have hhalf : (1 : ℝ) / 2 ≤ 1 / (1 + 1999 * Real.exp (-40)) :=
      div_le_div_of_nonneg_left (by norm_num) (by positivity) (by nlinarith)
    linarith
  rw [show (2000 : Nat) = 1999 + 1 from rfl, Finset.sum_range_succ' _ 1999]
  have hconst : ∀ i ∈ Finset.range 1999, softmax_kernel x₀ 1 2000 (i + 1) = 1e-7 :=
    fun i hi => hentry (i + 1) (Nat.le_add_left 1 i) (by
      have := Finset.mem_range.mp hi
      omega)
  rw [Finset.sum_congr rfl hconst, hentry0, Finset.sum_const, Finset.card_range, nsmul_eq_mul]
  have hd_small : 1999 * Real.exp (-40) ≤ 1999 / 2 ^ 40 := by
    rw [div_eq_mul_inv]
    nlinarith
  have hinv : 1 - 1999 * Real.exp (-40) < 1 / (1 + 1999 * Real.exp (-40)) := by
    rw [lt_div_iff₀ (by positivity)]
    nlinarith
  nlinarith

/-- Claim C5: a batch of 32 all-zero input rows through zero biases and
arbitrary weights yields hidden pre-activations exactly 0 (after the first
GEMM and still after the bias add), GELU activation outputs exactly 0, output
logits exactly 0 (after the second GEMM and its bias add), and a softmax
output of exactly 1/OUTPUT_SIZE = 1/10 at every one of the 10 positions of
every row. -/
theorem forward_zero_input (W1 b1 W2 b2 input hidden output : Nat → ℝ)
    (hin : ∀ i < 32 * INPUT_SIZE, input i = 0)
    (hb1 : ∀ i < HIDDEN_SIZE, b1 i = 0)
    (hb2 : ∀ i < OUTPUT_SIZE, b2 i = 0) :
    (∀ idx < 32 * HIDDEN_SIZE,
      matmul_a_b_kernel input W1 hidden 32 INPUT_SIZE HIDDEN_SIZE idx = 0 ∧
      bias_add_kernel (matmul_a_b_kernel input W1 hidden 32 INPUT_SIZE HIDDEN_SIZE) b1 32
        HIDDEN_SIZE idx = 0 ∧
      (forward W1 b1 W2 b2 input hidden output 32).1 idx = 0) ∧
    (∀ idx < 32 * OUTPUT_SIZE,
      matmul_a_b_kernel (forward W1 b1 W2 b2 input hidden output 32).1 W2 output 32 HIDDEN_SIZE
        OUTPUT_SIZE idx = 0 ∧
      bias_add_kernel
        (matmul_a_b_kernel (forward W1 b1 W2 b2 input hidden output 32).1 W2 output 32 HIDDEN_SIZE
          OUTPUT_SIZE) b2 32 OUTPUT_SIZE idx = 0 ∧
      (forward W1 b1 W2 b2 input hidden output 32).2 idx = 1 / 10) := by
  have hH : ∀ idx < 32 * HIDDEN_SIZE,
      matmul_a_b_kernel input W1 hidden 32 INPUT_SIZE HIDDEN_SIZE idx = 0 := by
    intro idx hidx
    rw [matmul_val _ _ _ _ _ _ idx hidx]
    refine Finset.sum_eq_zero fun i hi => ?_
    have hrow : idx / HIDDEN_SIZE < 32 := (Nat.div_lt_iff_lt_mul (by decide)).mpr hidx
    rw [hin _ (flat_lt _ _ 32 INPUT_SIZE hrow (Finset.mem_range.mp hi)), zero_mul]
  have hB1 : ∀ idx < 32 * HIDDEN_SIZE,
      bias_add_kernel (matmul_a_b_kernel input W1 hidden 32 INPUT_SIZE HIDDEN_SIZE) b1 32
        HIDDEN_SIZE idx = 0 := by
    intro idx hidx
    rw [bias_add_val _ _ _ _ _ hidx, hH idx hidx,
      hb1 _ (Nat.mod_lt idx (by decide)), add_zero]
  have hG : ∀ idx < 32 * HIDDEN_SIZE,
      (forward W1 b1 W2 b2 input hidden output 32).1 idx = 0 := by
    intro idx hidx
    show gelu_kernel (bias_add_kernel (matmul_a_b_kernel input W1 hidden 32 INPUT_SIZE
      HIDDEN_SIZE) b1 32 HIDDEN_SIZE) (32 * HIDDEN_SIZE) idx = 0
    rw [gelu_val _ _ _ hidx, hB1 idx hidx, zero_mul]
  have hO1 : ∀ idx < 32 * OUTPUT_SIZE,
      matmul_a_b_kernel (forward W1 b1 W2 b2 input hidden output 32).1 W2 output 32 HIDDEN_SIZE
        OUTPUT_SIZE idx = 0 := by
    intro idx hidx
    rw [matmul_val _ _ _ _ _ _ idx hidx]
    refine Finset.sum_eq_zero fun i hi => ?_
    have hrow : idx / OUTPUT_SIZE < 32 := (Nat.div_lt_iff_lt_mul (by decide)).mpr hidx
    rw [hG _ (flat_lt _ _ 32 HIDDEN_SIZE hrow (Finset.mem_range.mp hi)), zero_mul]
  have hO2 : ∀ idx < 32 * OUTPUT_SIZE,
      bias_add_kernel
        (matmul_a_b_kernel (forward W1 b1 W2 b2 input hidden output 32).1 W2 output 32 HIDDEN_SIZE
          OUTPUT_SIZE) b2 32 OUTPUT_SIZE idx = 0 := by
    intro idx hidx
    rw [bias_add_val _ _ _ _ _ hidx, hO1 idx hidx,
      hb2 _ (Nat.mod_lt idx (by decide)), add_zero]
  have hOUT : 1 ≤ OUTPUT_SIZE := by decide
  have hrowZ : ∀ b < 32, ∀ j < OUTPUT_SIZE,
      bias_add_kernel
        (matmul_a_b_kernel (forward W1 b1 W2 b2 input hidden output 32).1 W2 output 32 HIDDEN_SIZE
          OUTPUT_SIZE) b2 32 OUTPUT_SIZE (b * OUTPUT_SIZE + j) = 0 :=
    fun b hbb j hj => hO2 _ (flat_lt b j 32 OUTPUT_SIZE hbb hj)
  have hrowMax : ∀ b < 32,
      rowMax
        (bias_add_kernel
          (matmul_a_b_kernel (forward W1 b1 W2 b2 input hidden output 32).1 W2 output 32
            HIDDEN_SIZE OUTPUT_SIZE) b2 32 OUTPUT_SIZE) b OUTPUT_SIZE = 0 := by
    intro b hbb
    have h0 : bias_add_kernel
        (matmul_a_b_kernel (forward W1 b1 W2 b2 input hidden output 32).1 W2 output 32 HIDDEN_SIZE
          OUTPUT_SIZE) b2 32 OUTPUT_SIZE (b * OUTPUT_SIZE) = 0 := by
      have := hrowZ b hbb 0 (by decide)
      rwa [Nat.add_zero] at this
    simp only [rowMax, h0]
    exact foldl_max_of_le _ _ 0 fun i hi => by
      rw [List.mem_range'_1] at hi
      rw [hrowZ b hbb i (by omega)]
  have hrowSum : ∀ b < 32,
      rowExpSum
        (bias_add_kernel
          (matmul_a_b_kernel (forward W1 b1 W2 b2 input hidden output 32).1 W2 output 32
            HIDDEN_SIZE OUTPUT_SIZE) b2 32 OUTPUT_SIZE) b OUTPUT_SIZE = 10 := by
    intro b hbb
    simp only [rowExpSum, hrowMax b hbb]
    calc ∑ j ∈ Finset.range OUTPUT_SIZE,
        Real.exp
          (bias_add_kernel
            (matmul_a_b_kernel (forward W1 b1 W2 b2 input hidden output 32).1 W2 output 32
              HIDDEN_SIZE OUTPUT_SIZE) b2 32 OUTPUT_SIZE (b * OUTPUT_SIZE + j) - 0) =
        ∑ j ∈ Finset.range OUTPUT_SIZE, (1 : ℝ) := by
          refine Finset.sum_congr rfl fun j hj => ?_
          rw [hrowZ b hbb j (Finset.mem_range.mp hj), sub_zero, Real.exp_zero]
    _ = 10 := by
          rw [Finset.sum_const, Finset.card_range]
          norm_num [OUTPUT_SIZE]
  refine ⟨fun idx hidx => ⟨hH idx hidx, hB1 idx hidx, hG idx hidx⟩,
    fun idx hidx => ⟨hO1 idx hidx, hO2 idx hidx, ?_⟩⟩
  show softmax_kernel
      (bias_add_kernel
        (matmul_a_b_kernel (forward W1 b1 W2 b2 input hidden output 32).1 W2 output 32 HIDDEN_SIZE
          OUTPUT_SIZE) b2 32 OUTPUT_SIZE) 32 OUTPUT_SIZE idx = 1 / 10
  have hbb : idx / OUTPUT_SIZE < 32 := (Nat.div_lt_iff_lt_mul (by decide)).mpr hidx
  have hii : idx % OUTPUT_SIZE < OUTPUT_SIZE := Nat.mod_lt idx (by decide)
  have hsv := softmax_val
    (bias_add_kernel
      (matmul_a_b_kernel (forward W1 b1 W2 b2 input hidden output 32).1 W2 output 32 HIDDEN_SIZE
        OUTPUT_SIZE) b2 32 OUTPUT_SIZE) 32 OUTPUT_SIZE (idx / OUTPUT_SIZE) (idx % OUTPUT_SIZE)
    hbb hii
  rw [Nat.div_add_mod' idx OUTPUT_SIZE] at hsv
  rw [hsv, hrowMax _ hbb, hrowSum _ hbb, hO2 idx hidx, sub_zero, Real.exp_zero]
  rw [max_eq_left (by norm_num : (1e-7 : ℝ) ≤ 1 / 10)]

/-- Witness for C5 with all-zero weights and buffers. -/
theorem forward_zero_input_witness :
    ((∀ i < 32 * INPUT_SIZE, (fun _ => (0 : ℝ)) i = 0) ∧
      (∀ i < HIDDEN_SIZE, (fun _ => (0 : ℝ)) i = 0) ∧
      (∀ i < OUTPUT_SIZE, (fun _ => (0 : ℝ)) i = 0)) ∧
      ((∀ idx < 32 * HIDDEN_SIZE,
        matmul_a_b_kernel (fun _ => 0) (fun _ => 0) (fun _ => 0) 32 INPUT_SIZE HIDDEN_SIZE idx =
          0 ∧
        bias_add_kernel
          (matmul_a_b_kernel (fun _ => 0) (fun _ => 0) (fun _ => 0) 32 INPUT_SIZE HIDDEN_SIZE)
          (fun _ => 0) 32 HIDDEN_SIZE idx = 0 ∧
        (forward (fun _ => 0) (fun _ => 0) (fun _ => 0) (fun _ => 0) (fun _ => 0) (fun _ => 0)
          (fun _ => 0) 32).1 idx = 0) ∧
      (∀ idx < 32 * OUTPUT_SIZE,
        matmul_a_b_kernel
          (forward (fun _ => 0) (fun _ => 0) (fun _ => 0) (fun _ => 0) (fun _ => 0) (fun _ => 0)
            (fun _ => 0) 32).1 (fun _ => 0) (fun _ => 0) 32 HIDDEN_SIZE OUTPUT_SIZE idx = 0 ∧
        bias_add_kernel
          (matmul_a_b_kernel
            (forward (fun _ => 0) (fun _ => 0) (fun _ => 0) (fun _ => 0) (fun _ => 0) (fun _ => 0)
              (fun _ => 0) 32).1 (fun _ => 0) (fun _ => 0) 32 HIDDEN_SIZE OUTPUT_SIZE)
          (fun _ => 0) 32 OUTPUT_SIZE idx = 0 ∧
        (forward (fun _ => 0) (fun _ => 0) (fun _ => 0) (fun _ => 0) (fun _ => 0) (fun _ => 0)
          (fun _ => 0) 32).2 idx = 1 / 10)) :=
  ⟨⟨fun _ _ => rfl, fun _ _ => rfl, fun _ _ => rfl⟩,
    forward_zero_input (fun _ => 0) (fun _ => 0) (fun _ => 0) (fun _ => 0) (fun _ => 0)
      (fun _ => 0) (fun _ => 0) (fun _ _ => rfl) (fun _ _ => rfl) (fun _ _ => rfl)⟩

namespace WMMA

/-- MMA tile dimension M from the benchmark source. -/
def M : Nat := 16

/-- MMA tile dimension N from the benchmark source. -/
def N : Nat := 16

/-- MMA tile dimension K from the benchmark source. -/
def K : Nat := 16

/-- Tile count M_TILES from the benchmark source. -/
def M_TILES : Nat := 256

/-- Tile count N_TILES from the benchmark source. -/
def N_TILES : Nat := 256

/-- Tile count K_TILES from the benchmark source. -/
def K_TILES : Nat := 256

/-- M_TOTAL = M * M_TILES = 4096. -/
def M_TOTAL : Nat := M * M_TILES

/-- N_TOTAL = N * N_TILES = 4096. -/
def N_TOTAL : Nat := N * N_TILES

/-- K_TOTAL = K * K_TILES = 4096. -/
def K_TOTAL : Nat := K * K_TILES

/-- Fragment filled with a constant value (wmma fill_fragment). -/
noncomputable def fill_fragment (v : ℝ) : Nat → Nat → ℝ := fun _ _ => v

/-- Fragment load with row-major layout and leading dimension ldm: fragment
element (i, j) comes from memory position base + i*ldm + j. -/
noncomputable def load_matrix_row_major (A : Nat → ℝ) (base ldm : Nat) : Nat → Nat → ℝ :=
  fun i j => A (base + i * ldm + j)

/-- Fragment load with col-major layout and leading dimension ldm: fragment
element (i, j) comes from memory position base + j*ldm + i (as declared for
the matrix_b fragment in the source). -/
noncomputable def load_matrix_col_major (B : Nat → ℝ) (base ldm : Nat) : Nat → Nat → ℝ :=
  fun i j => B (base + j * ldm + i)

/-- Fused multiply-accumulate on fragments (wmma mma_sync): the result at
(r, c) is the accumulator plus the 16-wide contraction of the a and b
fragments. -/
noncomputable def mma_sync (a b acc : Nat → Nat → ℝ) : Nat → Nat → ℝ :=
  fun r c => acc r c + ∑ i ∈ Finset.range K, a r i * b i c

/-- Fragment store with row-major layout (wmma store_matrix_sync): memory
position base + i*ldm + j receives fragment element (i, j) for i < M, j < N;
all other positions keep their previous contents. -/
noncomputable def store_matrix_sync (D : Nat → ℝ) (base ldm : Nat)
    (frag : Nat → Nat → ℝ) : Nat → ℝ := fun idx =>
  if base ≤ idx ∧ (idx - base) / ldm < M ∧ (idx - base) % ldm < N then
    frag ((idx - base) / ldm) ((idx - base) % ldm)
  else D idx

/-- The contraction loop of the benchmark kernel: starting from the
zero-filled accumulator, T fragment steps along the contracted dimension,
each guarded exactly as in the source (k = t*K for the t-th step). -/
noncomputable def wmma_loop (A B : Nat → ℝ) (a_row b_row : Nat) (T : Nat) : Nat → Nat → ℝ :=
  (List.range T).foldl
    (fun acc t =>
      if a_row < M_TOTAL ∧ t * K < K_TOTAL ∧ b_row < K_TOTAL ∧ t * K < N_TOTAL then
        mma_sync (load_matrix_row_major A (t * K + a_row * K_TOTAL) K_TOTAL)
          (load_matrix_col_major B (t * K + b_row * N_TOTAL) N_TOTAL) acc
      else acc)
    (fill_fragment 0)

/-- Kernel `WMMAF16TensorCore` for the worker group with tile coordinates
(ix, iy): runs the contraction loop over all K_TILES fragment steps, then
loads the C tile, adds it elementwise into the accumulator and stores the
result into D (the final contents of the D buffer are returned). -/
noncomputable def WMMAF16TensorCore (A B C D : Nat → ℝ) (ix iy : Nat) : Nat → ℝ :=
  let a_row := ix * M
  let b_row := iy * N
  let ab_frag := wmma_loop A B a_row b_row K_TILES
  let c_row := a_row
  let c_col := b_row
  if c_row < M_TOTAL ∧ c_col < N_TOTAL then
    let c_frag := load_matrix_row_major C (c_col + c_row * N_TOTAL) N_TOTAL
    store_matrix_sync D (c_col + c_row * N_TOTAL) N_TOTAL (fun i j => ab_frag i j + c_frag i j)
  else D

/-- The spec-side target of the benchmark, written from the spec's words:
D = A×B + C, entry (r, c) being the full contraction of row r of A with
column c of B plus the addend entry of C. -/
noncomputable def gemmSpec (Amat Bmat Cmat : Nat → Nat → ℝ) (kTotal : Nat) : Nat → Nat → ℝ :=
  fun r c => (∑ i ∈ Finset.range kTotal, Amat r i * Bmat i c) + Cmat r c

/-- Splitting a contraction over T*s indices into T chunks of s. -/
theorem sum_range_mul_split (f : Nat → ℝ) (s : Nat) :
    ∀ T : Nat, ∑ j ∈ Finset.range (T * s), f j =
      ∑ t ∈ Finset.range T, ∑ i ∈ Finset.range s, f (t * s + i) := by
  intro T
  induction T with
  | zero => simp
  | succ T ih =>
    rw [Nat.succ_mul, Finset.sum_range_add, ih, Finset.sum_range_succ]

/-- After T in-range steps, the contraction loop accumulator holds the
partial contraction over the first T*K indices. -/
theorem wmma_loop_eq (A B : Nat → ℝ) (a_row b_row r c : Nat)
    (ha : a_row < M_TOTAL) (hb : b_row < K_TOTAL) :
    ∀ T, T ≤ K_TILES →
      wmma_loop A B a_row b_row T r c =
        ∑ j ∈ Finset.range (T * K),
          A (a_row * K_TOTAL + r * K_TOTAL + j) * B (b_row * N_TOTAL + c * N_TOTAL + j) := by
  intro T
  induction T with
  | zero =>
    intro _
    simp [wmma_loop, fill_fragment]
  | succ T ih =>
    intro hT
    have hT' : T ≤ K_TILES := Nat.le_of_succ_le hT
    have hunfold : wmma_loop A B a_row b_row (T + 1) r c =
        (if a_row < M_TOTAL ∧ T * K < K_TOTAL ∧ b_row < K_TOTAL ∧ T * K < N_TOTAL then
          mma_sync (load_matrix_row_major A (T * K + a_row * K_TOTAL) K_TOTAL)
            (load_matrix_col_major B (T * K + b_row * N_TOTAL) N_TOTAL)
            (wmma_loop A B a_row b_row T)
        else wmma_loop A B a_row b_row T) r c := by
      simp only [wmma_loop, List.range_succ, List.foldl_append, List.foldl_cons, List.foldl_nil]
    have hT256 : T + 1 ≤ 256 := hT
    have hTK : T * K < K_TOTAL := by
      show T * 16 < 4096
      omega
    have hTN : T * K < N_TOTAL := by
      show T * 16 < 4096
      omega
    rw [hunfold, if_pos ⟨ha, hTK, hb, hTN⟩]
    simp only [mma_sync, load_matrix_row_major, load_matrix_col_major]
    rw [ih hT', Nat.succ_mul, Finset.sum_range_add]
    congr 1
    refine Finset.sum_congr rfl fun i _ => ?_
    congr 1
    · congr 1
      ring
    · congr 1
      ring

/-- Claim C4: for every pair of in-range tile coordinates (ix, iy) and every
position (r, c) inside the 16×16 tile, the value the benchmark kernel stores
into D at the corresponding row-major position equals the spec-side
D = A×B + C at that entry, A being addressed row-major with leading dimension
K_TOTAL, B column-major with leading dimension N_TOTAL (as the source's
fragment layouts declare), and C row-major with leading dimension N_TOTAL. -/
theorem wmma_computes_gemm (A B C D : Nat → ℝ) (ix iy r c : Nat)
    (hix : ix < M_TILES) (hiy : iy < N_TILES) (hr : r < M) (hc : c < N) :
    WMMAF16TensorCore A B C D ix iy ((ix * M + r) * N_TOTAL + (iy * N + c)) =
      gemmSpec (fun i j => A (i * K_TOTAL + j)) (fun i j => B (i + j * N_TOTAL))
        (fun i j => C (i * N_TOTAL + j)) K_TOTAL (ix * M + r) (iy * N + c) := by
  have hix256 : ix < 256 := hix
  have hiy256 : iy < 256 := hiy
  have hr16 : r < 16 := hr
  have hc16 : c < 16 := hc
  have hcr : ix * M < M_TOTAL := by
    show ix * 16 < 4096
    omega
  have hcc : iy * N < N_TOTAL := by
    show iy * 16 < 4096
    omega
  have hbrow : iy * N < K_TOTAL := by
    show iy * 16 < 4096
    omega
  simp only [WMMAF16TensorCore]
  rw [if_pos ⟨hcr, hcc⟩]
  simp only [store_matrix_sync]
  have hbase : iy * N + ix * M * N_TOTAL ≤ (ix * M + r) * N_TOTAL + (iy * N + c) := by
    show iy * 16 + ix * 16 * 4096 ≤ (ix * 16 + r) * 4096 + (iy * 16 + c)
    omega
  have hsub : (ix * M + r) * N_TOTAL + (iy * N + c) - (iy * N + ix * M * N_TOTAL) =
      r * N_TOTAL + c := by
    show (ix * 16 + r) * 4096 + (iy * 16 + c) - (iy * 16 + ix * 16 * 4096) = r * 4096 + c
    omega
  have hNle : N ≤ N_TOTAL := by
    show 16 ≤ 4096
    omega
  have hdiv : (r * N_TOTAL + c) / N_TOTAL = r := flat_div r N_TOTAL c (lt_of_lt_of_le hc hNle)
  have hmod : (r * N_TOTAL + c) % N_TOTAL = c := flat_mod r N_TOTAL c (lt_of_lt_of_le hc hNle)
  rw [hsub, hdiv, hmod]
  have hrM : r < M := hr
  have hcN : c < N := hc
  rw [if_pos ⟨hbase, hrM, hcN⟩]
  rw [wmma_loop_eq A B (ix * M) (iy * N) r c hcr hbrow K_TILES (le_refl _)]
  simp only [gemmSpec, load_matrix_row_major]
  have hrange : K_TILES * K = K_TOTAL := rfl
  rw [hrange]
  have hC : iy * N + ix * M * N_TOTAL + r * N_TOTAL + c =
      (ix * M + r) * N_TOTAL + (iy * N + c) := by
    show iy * 16 + ix * 16 * 4096 + r * 4096 + c = (ix * 16 + r) * 4096 + (iy * 16 + c)
    omega
  rw [hC]
  have hsum : ∀ j : Nat,
      A (ix * M * K_TOTAL + r * K_TOTAL + j) * B (iy * N * N_TOTAL + c * N_TOTAL + j) =
        A ((ix * M + r) * K_TOTAL + j) * B (j + (iy * N + c) * N_TOTAL) := by
    intro j
    have e1 : ix * M * K_TOTAL + r * K_TOTAL + j = (ix * M + r) * K_TOTAL + j := by
      show ix * 16 * 4096 + r * 4096 + j = (ix * 16 + r) * 4096 + j
      omega
    have e2 : iy * N * N_TOTAL + c * N_TOTAL + j = j + (iy * N + c) * N_TOTAL := by
      show iy * 16 * 4096 + c * 4096 + j = j + (iy * 16 + c) * 4096
      omega
    rw [e1, e2]
  simp only [hsum]

end WMMA

/-- Witness for C4 at tile (0, 0), position (0, 0), zero matrices. -/
theorem wmma_computes_gemm_witness :
    (0 < WMMA.M_TILES ∧ 0 < WMMA.N_TILES ∧ 0 < WMMA.M ∧ 0 < WMMA.N) ∧
      WMMA.WMMAF16TensorCore (fun _ => 0) (fun _ => 0) (fun _ => 0) (fun _ => 0) 0 0
          ((0 * WMMA.M + 0) * WMMA.N_TOTAL + (0 * WMMA.N + 0)) =
        WMMA.gemmSpec (fun i j => (fun _ => (0 : ℝ)) (i * WMMA.K_TOTAL + j))
          (fun i j => (fun _ => (0 : ℝ)) (i + j * WMMA.N_TOTAL))
          (fun i j => (fun _ => (0 : ℝ)) (i * WMMA.N_TOTAL + j)) WMMA.K_TOTAL
          (0 * WMMA.M + 0) (0 * WMMA.N + 0) :=
  ⟨⟨by decide, by decide, by decide, by decide⟩,
    WMMA.wmma_computes_gemm (fun _ => 0) (fun _ => 0) (fun _ => 0) (fun _ => 0) 0 0 0 0
      (by decide) (by decide) (by decide) (by decide)⟩
